import Mathlib

/-!
Shallow embedding of `src/cpp/BloomFilter.hpp` (goatplatform/goatdb).

The header declares the full public surface but only three bodies are in
the source: the `FalsePositiveRate` constructor/getter and the accessors
`getNumberOfHashes` / `getTotalSize` / `getSize`.  Those are translated
directly from the source.  Every other operation (`add`, `has`, `clear`,
`fillRate`, `calculateTotalBits`, `calculateOptMaxNumHashes`,
`hashString`, `setBit`, `getBit`, the two constructors and the
serialization contract) has only a declaration in the header, so the
corresponding definitions below are modelled from the spec, as marked in
their doc comments.
-/

namespace Bloom

/-! ## IEEE-style doubles, restricted to what the validation code needs

`FalsePositiveRate` takes a C++ `double` and compares it against the
exact constants 0 and 1 with `<=` / `>=`.  We model a double as either
NaN or a finite rational; IEEE ordered comparisons return false whenever
either operand is NaN, and agree with the rational order on finite
values (0 and 1 are exactly representable, so no rounding is involved in
the comparisons the code performs). -/

inductive Double where
  | nan : Double
  | val : ℚ → Double
deriving DecidableEq

/-- IEEE `<=` on doubles: false when either side is NaN. -/
def Double.leD : Double → Double → Bool
  | .val a, .val b => decide (a ≤ b)
  | _, _ => false

/-- IEEE `>=` on doubles (`a >= b` is `b <= a` for non-NaN, false on NaN). -/
def Double.geD (a b : Double) : Bool := Double.leD b a

/-- IEEE `<` on doubles: false when either side is NaN. -/
def Double.ltD : Double → Double → Bool
  | .val a, .val b => decide (a < b)
  | _, _ => false

/-- Error taxonomy: the constructor throws `std::invalid_argument`. -/
inductive BloomError where
  | invalidArgument : String → BloomError
deriving DecidableEq

/-- `class FalsePositiveRate` carrying the validated value. -/
structure FalsePositiveRate where
  value_ : Double
deriving DecidableEq

/-- The source constructor (BloomFilter.hpp lines 18-24):
`if (value <= 0 || value >= 1) throw std::invalid_argument(...)`,
otherwise the member `value_` holds the argument. -/
def FalsePositiveRate.construct (value : Double) : Except BloomError FalsePositiveRate :=
  if value.leD (.val 0) || value.geD (.val 1) then
    .error (.invalidArgument "FPR must be between 0 and 1")
  else
    .ok ⟨value⟩

/-- `double getValue() const { return value_; }` (lines 25-28). -/
def FalsePositiveRate.getValue (f : FalsePositiveRate) : Double := f.value_

/-! ## The hash

Only `static uint32_t hashString(const std::string&, uint32_t seed)` is
declared in the header. -/

/-- Modelled from the spec: `hashString`'s body is missing from src.
§4.3: "a deterministic, seed-parameterized non-cryptographic string hash
(e.g. an FNV- or Murmur-style mix) producing a 32-bit digest".  We model
it as an FNV-1a-style mix seeded by `seed`, with every step reduced
modulo 2^32 as the C++ `uint32_t` arithmetic does. -/
def hashString (value : String) (seed : ℕ) : ℕ :=
  value.data.foldl (fun h c => ((h ^^^ c.toNat) * 16777619) % 2 ^ 32) (seed % 2 ^ 32)

/-! ## The filter state

`struct BloomFilterSerialized { uint32_t size; uint32_t num_hashes;
uint32_t hashes[30]; uint64_t bytes[]; }`, packed.  We model the header
fields and the trailing word array; machine widths are tracked by the
well-formedness predicate and by the serializer's modular reduction. -/

structure BloomFilter where
  size : ℕ
  num_hashes : ℕ
  hashes : List ℕ
  words : List ℕ
deriving DecidableEq

/-- `size_t getSize() const { return internal->size; }` (lines 77-80). -/
def getSize (bf : BloomFilter) : ℕ := bf.size

/-- `size_t getNumberOfHashes() const { return internal->num_hashes; }`
(lines 67-70). -/
def getNumberOfHashes (bf : BloomFilter) : ℕ := bf.num_hashes

/-- `size_t getTotalSize() const { return totalSize; }` (lines 72-75).
The stored `totalSize` is set at construction; modelled from the spec
(§4.5 / §6): header length 128 plus `ceil(size/64)*8` bytes of words, in
both construction modes. -/
def getTotalSize (bf : BloomFilter) : ℕ := 128 + ((bf.size + 63) / 64) * 8

/-- Modelled from the spec: `setBit`'s body is missing from src.  §4.4:
word = `index / 64`, bit offset = `index % 64`, OR the bit into the
trailing word array. -/
def setBit (bf : BloomFilter) (index : ℕ) : BloomFilter :=
  { bf with
    words := bf.words.set (index / 64)
      ((bf.words.getD (index / 64) 0) ||| (1 <<< (index % 64))) }

/-- Modelled from the spec: `getBit`'s body is missing from src.  §4.4:
reads bit `index % 64` of word `index / 64` without mutation. -/
def getBit (bf : BloomFilter) (index : ℕ) : Bool :=
  Nat.testBit (bf.words.getD (index / 64) 0) (index % 64)

/-- The bit positions probed for `value`: §4.5, for `i` in
`0..num_hashes`, bit `hash(value, seeds[i]) mod size`. -/
def bitIndices (bf : BloomFilter) (value : String) : List ℕ :=
  (bf.hashes.take bf.num_hashes).map (fun seed => hashString value seed % bf.size)

/-- Modelled from the spec: `add`'s body is missing from src.  §4.5:
sets bit `hash(value, seeds[i]) mod size` for each of the `num_hashes`
stored seeds. -/
def add (bf : BloomFilter) (value : String) : BloomFilter :=
  (bitIndices bf value).foldl setBit bf

/-- Modelled from the spec: `has`'s body is missing from src.  §4.5:
true iff every probed bit is set (short-circuits on the first unset
bit, which `List.all`'s `&&` mirrors). -/
def has (bf : BloomFilter) (value : String) : Bool :=
  (bitIndices bf value).all (getBit bf)

/-- Modelled from the spec: `clear`'s body is missing from src.  §4.5:
zeroes every bit word; header fields untouched. -/
def clear (bf : BloomFilter) : BloomFilter :=
  { bf with words := List.replicate bf.words.length 0 }

/-- Modelled from the spec: `fillRate`'s body is missing from src.
§4.5: fraction of bits currently set, in `[0,1]` (the C++ returns a
`double`; the exact fraction is the value it approximates). -/
def fillRate (bf : BloomFilter) : ℚ :=
  ((List.range bf.size).countP (fun i => getBit bf i) : ℚ) / bf.size

/-! ## List helpers for the bit array -/

lemma getD_set (l : List ℕ) (n m v : ℕ) :
    (l.set n v).getD m 0 = if n = m ∧ n < l.length then v else l.getD m 0 := by
  induction l generalizing n m with
  | nil => simp [List.set]
  | cons a t ih =>
    cases n with
    | zero =>
      cases m with
      | zero => simp
      | succ m => simp
    | succ n =>
      cases m with
      | zero => simp
      | succ m =>
        simp only [List.set, List.getD_cons_succ, List.length_cons, ih]
        congr 1
        simp only [eq_iff_iff]
        constructor
        · rintro ⟨h1, h2⟩; exact ⟨by omega, by omega⟩
        · rintro ⟨h1, h2⟩; exact ⟨by omega, by omega⟩

lemma setBit_size (bf : BloomFilter) (i : ℕ) : (setBit bf i).size = bf.size := rfl

lemma setBit_num_hashes (bf : BloomFilter) (i : ℕ) :
    (setBit bf i).num_hashes = bf.num_hashes := rfl

lemma setBit_hashes (bf : BloomFilter) (i : ℕ) : (setBit bf i).hashes = bf.hashes := rfl

lemma setBit_words_length (bf : BloomFilter) (i : ℕ) :
    (setBit bf i).words.length = bf.words.length := by
  simp [setBit]

/-- Setting a bit never clears another bit. -/
lemma getBit_setBit_mono (bf : BloomFilter) (i j : ℕ) (h : getBit bf i = true) :
    getBit (setBit bf j) i = true := by
  unfold getBit setBit at *
  simp only [getD_set]
  by_cases hc : j / 64 = i / 64 ∧ j / 64 < bf.words.length
  · rw [if_pos hc, hc.1, Nat.testBit_or, h, Bool.true_or]
  · rw [if_neg hc]
    exact h

/-- After `setBit bf i`, bit `i` reads as set (when the word index is in
range of the word array). -/
lemma getBit_setBit_self (bf : BloomFilter) (i : ℕ)
    (h : i / 64 < bf.words.length) : getBit (setBit bf i) i = true := by
  unfold getBit setBit
  rw [getD_set, if_pos (And.intro rfl h), Nat.shiftLeft_eq, one_mul]
  simp [Nat.testBit_or, Nat.testBit_two_pow_self]

/-! ## Folding `setBit` over a list of indices -/

lemma foldl_setBit_size (l : List ℕ) (bf : BloomFilter) :
    (l.foldl setBit bf).size = bf.size := by
  induction l generalizing bf with
  | nil => rfl
  | cons a t ih => simp [List.foldl_cons, ih, setBit_size]

lemma foldl_setBit_num_hashes (l : List ℕ) (bf : BloomFilter) :
    (l.foldl setBit bf).num_hashes = bf.num_hashes := by
  induction l generalizing bf with
  | nil => rfl
  | cons a t ih => simp [List.foldl_cons, ih, setBit_num_hashes]

lemma foldl_setBit_hashes (l : List ℕ) (bf : BloomFilter) :
    (l.foldl setBit bf).hashes = bf.hashes := by
  induction l generalizing bf with
  | nil => rfl
  | cons a t ih => simp [List.foldl_cons, ih, setBit_hashes]

lemma foldl_setBit_words_length (l : List ℕ) (bf : BloomFilter) :
    (l.foldl setBit bf).words.length = bf.words.length := by
  induction l generalizing bf with
  | nil => rfl
  | cons a t ih => rw [List.foldl_cons, ih, setBit_words_length]

lemma getBit_foldl_setBit_mono (l : List ℕ) (bf : BloomFilter) (i : ℕ)
    (h : getBit bf i = true) : getBit (l.foldl setBit bf) i = true := by
  induction l generalizing bf with
  | nil => exact h
  | cons a t ih => exact ih _ (getBit_setBit_mono _ _ _ h)

lemma getBit_foldl_setBit_mem (l : List ℕ) (bf : BloomFilter) (i : ℕ)
    (hmem : i ∈ l) (hrange : i / 64 < bf.words.length) :
    getBit (l.foldl setBit bf) i = true := by
  induction l generalizing bf with
  | nil => cases hmem
  | cons a t ih =>
    rw [List.foldl_cons]
    rcases List.mem_cons.mp hmem with h | h
    · subst h
      exact getBit_foldl_setBit_mono _ _ _ (getBit_setBit_self _ _ hrange)
    · exact ih _ h (by rw [setBit_words_length]; exact hrange)

/-! ## `add` / `has` -/

lemma add_size (bf : BloomFilter) (v : String) : (add bf v).size = bf.size :=
  foldl_setBit_size _ _

lemma add_num_hashes (bf : BloomFilter) (v : String) :
    (add bf v).num_hashes = bf.num_hashes :=
  foldl_setBit_num_hashes _ _

lemma add_hashes (bf : BloomFilter) (v : String) : (add bf v).hashes = bf.hashes :=
  foldl_setBit_hashes _ _

lemma add_words_length (bf : BloomFilter) (v : String) :
    (add bf v).words.length = bf.words.length :=
  foldl_setBit_words_length _ _

/-- `add` leaves the header fields alone, so the probed indices of any
value are unchanged. -/
lemma bitIndices_add (bf : BloomFilter) (v x : String) :
    bitIndices (add bf v) x = bitIndices bf x := by
  unfold bitIndices
  rw [add_size, add_num_hashes, add_hashes]

/-- Each probed index is below `size`, hence its word index is in range
of a word array covering `size` bits. -/
lemma bitIndices_range (bf : BloomFilter) (x : String) (i : ℕ)
    (hmem : i ∈ bitIndices bf x) (hpos : 0 < bf.size)
    (hcap : bf.size ≤ 64 * bf.words.length) : i / 64 < bf.words.length := by
  unfold bitIndices at hmem
  rcases List.mem_map.mp hmem with ⟨s, _, hs⟩
  have hi : i < bf.size := hs ▸ Nat.mod_lt _ hpos
  have : i < bf.words.length * 64 := by omega
  exact Nat.div_lt_of_lt_mul (by omega)

/-- Right after `add bf x`, every probed bit of `x` is set. -/
lemma has_add_self (bf : BloomFilter) (x : String) (hpos : 0 < bf.size)
    (hcap : bf.size ≤ 64 * bf.words.length) : has (add bf x) x = true := by
  unfold has
  rw [bitIndices_add]
  rw [List.all_eq_true]
  intro i hi
  exact getBit_foldl_setBit_mem _ _ _ hi (bitIndices_range _ _ _ hi hpos hcap)

/-- A positive `has` answer survives any further `add`. -/
lemma has_mono_add (bf : BloomFilter) (x v : String) (h : has bf x = true) :
    has (add bf v) x = true := by
  unfold has at *
  rw [bitIndices_add]
  rw [List.all_eq_true] at *
  intro i hi
  exact getBit_foldl_setBit_mono _ _ _ (h i hi)

/-! ## The binary layout (§6)

Little-endian bytes: `size` (uint32) at offset 0, `num_hashes` (uint32)
at offset 4, thirty uint32 seeds at offset 8, uint64 words at offset
128; total length `128 + ceil(size/64)*8`.  The struct is 1-byte packed,
so field encodings are laid out back to back with no padding. -/

/-- Encode `n` as `k` little-endian bytes (the in-memory image of a
`uintN_t` on the little-endian hosts the header restricts compilation
to). -/
def toLEBytes (k : ℕ) (n : ℕ) : List ℕ :=
  match k with
  | 0 => []
  | k + 1 => n % 256 :: toLEBytes k (n / 256)

/-- Decode a little-endian byte list back to a number. -/
def fromLEBytes (bs : List ℕ) : ℕ :=
  match bs with
  | [] => 0
  | b :: rest => b + 256 * fromLEBytes rest

/-- Back-to-back `k`-byte encodings of a list of field values (the
packed `hashes[30]` and trailing `bytes[]` arrays). -/
def encodeList (k : ℕ) (l : List ℕ) : List ℕ :=
  l.foldr (fun s acc => toLEBytes k s ++ acc) []

/-- The filter's raw buffer, as exposed by `getInternalPointer` and
consumed by `BloomFilter(const char *buff)`: header then words.
Modelled from the spec (§6); the constructors' bodies are missing from
src, the layout itself is `struct BloomFilterSerialized` (lines 34-42). -/
def serialize (bf : BloomFilter) : List ℕ :=
  toLEBytes 4 bf.size ++
    (toLEBytes 4 bf.num_hashes ++ (encodeList 4 bf.hashes ++ encodeList 8 bf.words))

/-- Sequential little-endian reads of `count` fields of `k` bytes. -/
def readList (k : ℕ) (count : ℕ) (buf : List ℕ) : List ℕ :=
  match count with
  | 0 => []
  | c + 1 => fromLEBytes (buf.take k) :: readList k c (buf.drop k)

/-- Modelled from the spec: the body of `BloomFilter(const char *buff)`
is missing from src.  §4.5 `Construct(buffer)`: adopts the buffer,
reading `size` and `num_hashes` from the header at offsets 0 and 4, the
30 seeds at offset 8, and `ceil(size/64)` words at offset 128, trusting
the header fields with no validation. -/
def deserialize (buf : List ℕ) : BloomFilter :=
  { size := fromLEBytes (buf.take 4)
    num_hashes := fromLEBytes ((buf.drop 4).take 4)
    hashes := readList 4 30 (buf.drop 8)
    words := readList 8 ((fromLEBytes (buf.take 4) + 63) / 64) (buf.drop 128) }

/-- Well-formedness: what holds of every filter built by the
parameterized constructor (machine field widths, 30 seed slots,
`ceil(size/64)` words). -/
def WF (bf : BloomFilter) : Prop :=
  bf.size < 2 ^ 32 ∧ bf.num_hashes < 2 ^ 32 ∧ bf.hashes.length = 30 ∧
    (∀ s ∈ bf.hashes, s < 2 ^ 32) ∧ bf.words.length = (bf.size + 63) / 64 ∧
    (∀ w ∈ bf.words, w < 2 ^ 64)

instance (bf : BloomFilter) : Decidable (WF bf) := by
  unfold WF
  infer_instance

/-! ## Round-trip lemmas -/

lemma toLEBytes_length (k n : ℕ) : (toLEBytes k n).length = k := by
  induction k generalizing n with
  | zero => rfl
  | succ k ih => simp [toLEBytes, ih]

lemma fromLEBytes_toLEBytes (k n : ℕ) : fromLEBytes (toLEBytes k n) = n % 256 ^ k := by
  induction k generalizing n with
  | zero => simp [toLEBytes, fromLEBytes, Nat.mod_one]
  | succ k ih =>
    rw [toLEBytes, fromLEBytes, ih, pow_succ, mul_comm (256 ^ k) 256, Nat.mod_mul]

lemma encodeList_length (k : ℕ) (l : List ℕ) :
    (encodeList k l).length = k * l.length := by
  induction l with
  | nil => simp [encodeList]
  | cons a t ih =>
    simp only [encodeList, List.foldr_cons, List.length_append, toLEBytes_length]
    simp only [encodeList] at ih
    rw [ih, List.length_cons]
    ring

lemma encodeList_cons (k a : ℕ) (t : List ℕ) :
    encodeList k (a :: t) = toLEBytes k a ++ encodeList k t := rfl

lemma take_append_length (l₁ l₂ : List ℕ) (n : ℕ) (h : l₁.length = n) :
    (l₁ ++ l₂).take n = l₁ := by
  subst h
  exact List.take_left l₁ l₂

lemma drop_append_length (l₁ l₂ : List ℕ) (n : ℕ) (h : l₁.length = n) :
    (l₁ ++ l₂).drop n = l₂ := by
  subst h
  exact List.drop_left l₁ l₂

/-- Reading back `count` packed fields recovers them when each fits in
`k` bytes. -/
lemma readList_encodeList (k : ℕ) (l tail : List ℕ)
    (hbound : ∀ s ∈ l, s < 256 ^ k) :
    readList k l.length (encodeList k l ++ tail) = l := by
  induction l with
  | nil => rfl
  | cons a t ih =>
    rw [List.length_cons, encodeList_cons, List.append_assoc, readList]
    rw [take_append_length _ _ _ (toLEBytes_length k a),
      drop_append_length _ _ _ (toLEBytes_length k a)]
    rw [fromLEBytes_toLEBytes, Nat.mod_eq_of_lt (hbound a (List.mem_cons_self a t)),
      ih (fun s hs => hbound s (List.mem_cons_of_mem _ hs))]

/-- Decoding offset 0 of the buffer recovers `size`. -/
lemma serialize_take_4 (bf : BloomFilter) (hsz : bf.size < 2 ^ 32) :
    fromLEBytes ((serialize bf).take 4) = bf.size := by
  rw [serialize, take_append_length _ _ _ (toLEBytes_length 4 bf.size),
    fromLEBytes_toLEBytes, show (256 : ℕ) ^ 4 = 2 ^ 32 from by norm_num,
    Nat.mod_eq_of_lt hsz]

/-- Offset 4 of the buffer starts the `num_hashes` field. -/
lemma serialize_drop_4 (bf : BloomFilter) :
    (serialize bf).drop 4 =
      toLEBytes 4 bf.num_hashes ++ (encodeList 4 bf.hashes ++ encodeList 8 bf.words) :=
  drop_append_length _ _ _ (toLEBytes_length 4 bf.size)

/-- Offset 8 of the buffer starts the packed seed array. -/
lemma serialize_drop_8 (bf : BloomFilter) :
    (serialize bf).drop 8 = encodeList 4 bf.hashes ++ encodeList 8 bf.words := by
  have h : (8 : ℕ) = 4 + 4 := by norm_num
  rw [h, ← List.drop_drop, serialize_drop_4,
    drop_append_length _ _ _ (toLEBytes_length 4 bf.num_hashes)]

/-- Offset 128 of the buffer starts the packed word array (the 30 seed
slots occupy bytes 8..127). -/
lemma serialize_drop_128 (bf : BloomFilter) (hhl : bf.hashes.length = 30) :
    (serialize bf).drop 128 = encodeList 8 bf.words := by
  have h : (128 : ℕ) = 8 + 120 := by norm_num
  rw [h, ← List.drop_drop, serialize_drop_8,
    drop_append_length _ _ _ (by rw [encodeList_length, hhl])]

/-- The buffer is exactly `128 + 8 * (number of words)` bytes long. -/
lemma serialize_length (bf : BloomFilter) (hhl : bf.hashes.length = 30) :
    (serialize bf).length = 128 + 8 * bf.words.length := by
  simp only [serialize, List.length_append, toLEBytes_length, encodeList_length, hhl]
  ring

/-- Adopting a filter's own buffer reproduces the filter exactly. -/
lemma deserialize_serialize (bf : BloomFilter) (hwf : WF bf) :
    deserialize (serialize bf) = bf := by
  obtain ⟨hsz, hnh, hhl, hhb, hwl, hwb⟩ := hwf
  have h256_4 : (256 : ℕ) ^ 4 = 2 ^ 32 := by norm_num
  have h256_8 : (256 : ℕ) ^ 8 = 2 ^ 64 := by norm_num
  have hsize := serialize_take_4 bf hsz
  have hdrop4 := serialize_drop_4 bf
  have hdrop8 := serialize_drop_8 bf
  have hdrop128 := serialize_drop_128 bf hhl
  unfold deserialize
  rw [hsize, hdrop4, take_append_length _ _ _ (toLEBytes_length 4 bf.num_hashes),
    fromLEBytes_toLEBytes, h256_4, Nat.mod_eq_of_lt hnh, hdrop8, hdrop128]
  have hseeds : readList 4 30 (encodeList 4 bf.hashes ++ encodeList 8 bf.words)
      = bf.hashes := by
    rw [← hhl, readList_encodeList 4 _ _ (by rw [h256_4]; exact hhb)]
  have hwords : readList 8 ((bf.size + 63) / 64) (encodeList 8 bf.words) = bf.words := by
    rw [← hwl, ← List.append_nil (encodeList 8 bf.words),
      readList_encodeList 8 _ _ (by rw [h256_8]; exact hwb)]
  rw [hseeds, hwords]

/-- Field `i` of a packed array encoded at offset `k * i`. -/
lemma encodeList_drop_take (k : ℕ) (l tail : List ℕ) (i : ℕ) (hi : i < l.length) :
    ((encodeList k l ++ tail).drop (k * i)).take k = toLEBytes k (l.getD i 0) := by
  induction l generalizing i tail with
  | nil => simp at hi
  | cons a t ih =>
    cases i with
    | zero =>
      rw [Nat.mul_zero, List.drop_zero, encodeList_cons, List.append_assoc,
        take_append_length _ _ _ (toLEBytes_length k a), List.getD_cons_zero]
    | succ i =>
      rw [encodeList_cons, List.append_assoc, show k * (i + 1) = k + k * i from by ring,
        ← List.drop_drop, drop_append_length _ _ _ (toLEBytes_length k a),
        List.getD_cons_succ]
      exact ih tail i (by simpa using Nat.succ_lt_succ_iff.mp (by simpa using hi))

lemma encodeList_drop_take_nil (k : ℕ) (l : List ℕ) (i : ℕ) (hi : i < l.length) :
    ((encodeList k l).drop (k * i)).take k = toLEBytes k (l.getD i 0) := by
  have h := encodeList_drop_take k l [] i hi
  rwa [List.append_nil] at h

/-! ## 32-bit digest bound for the hash -/

lemma hashString_lt (v : String) (s : ℕ) : hashString v s < 2 ^ 32 := by
  unfold hashString
  have key : ∀ (l : List Char) (h : ℕ), h < 2 ^ 32 →
      l.foldl (fun h c => ((h ^^^ c.toNat) * 16777619) % 2 ^ 32) h < 2 ^ 32 := by
    intro l
    induction l with
    | nil => intro h hh; exact hh
    | cons c t ih =>
      intro h hh
      exact ih _ (Nat.mod_lt _ (by norm_num))
  exact key _ _ (Nat.mod_lt _ (by norm_num))

/-! ## The sizing math (§4.2)

Only declarations are in src; bodies modelled from the spec.  The C++
computes with `double`; the model uses the exact real-number formulas
the spec states. -/

/-- Round a bit count up to a whole number of 64-bit words. -/
def roundUpTo64 (m : ℕ) : ℕ := ((m + 63) / 64) * 64

/-- Modelled from the spec: `calculateTotalBits`'s body is missing from
src.  §4.2: `m = ceil(-n*ln(p) / (ln 2)^2)`, rounded up to a multiple
of 64. -/
noncomputable def calculateTotalBits (n : ℕ) (p : ℝ) : ℕ :=
  roundUpTo64 (Int.toNat ⌈(-(n : ℝ) * Real.log p) / (Real.log 2) ^ 2⌉)

/-- Modelled from the spec: `calculateOptMaxNumHashes`'s body is missing
from src.  §4.2: `k = round((m/n)*ln 2)` clamped to `[1, 30]`; an
explicit `maxHashes` (the constructor default `0` means "not supplied")
replaces 30 as the hard ceiling, itself bounded above by 30. -/
noncomputable def calculateOptMaxNumHashes
    (itemCount bitArraySize maxHashes : ℕ) : ℕ :=
  min (if maxHashes = 0 then 30 else min maxHashes 30)
    (max 1 (round ((bitArraySize : ℝ) / (itemCount : ℝ) * Real.log 2)).toNat)

lemma getD_replicate_zero (n d : ℕ) : (List.replicate n (0 : ℕ)).getD d 0 = 0 := by
  induction n generalizing d with
  | zero => rfl
  | succ n ih =>
    cases d with
    | zero => rfl
    | succ d => exact ih d

/-! ## Claim theorems -/

/-- C1: No false negatives — for every filter and every string `x`,
after `add x` the filter answers `has x = true`, and it keeps answering
`true` through any interleaved later `add` calls (nothing but `clear`
ever resets a bit). -/
theorem no_false_negatives (bf : BloomFilter) (x : String) (vs : List String)
    (hpos : 0 < bf.size) (hcap : bf.size ≤ 64 * bf.words.length) :
    has (vs.foldl add (add bf x)) x = true := by
  have key : ∀ (l : List String) (b : BloomFilter),
      has b x = true → has (l.foldl add b) x = true := by
    intro l
    induction l with
    | nil => intro b hb; exact hb
    | cons v t ih => intro b hb; exact ih _ (has_mono_add _ _ _ hb)
  exact key vs _ (has_add_self bf x hpos hcap)

theorem no_false_negatives_witness :
    0 < (BloomFilter.mk 64 1 [7] [0]).size ∧
      (BloomFilter.mk 64 1 [7] [0]).size ≤
        64 * (BloomFilter.mk 64 1 [7] [0]).words.length ∧
      has (List.foldl add (add (BloomFilter.mk 64 1 [7] [0]) "alpha") ["beta"])
        "alpha" = true :=
  ⟨by decide, by decide,
    no_false_negatives (BloomFilter.mk 64 1 [7] [0]) "alpha" ["beta"]
      (by decide) (by decide)⟩

/-- C2: Round-trip through serialization — adopting a filter's raw
buffer yields a filter with identical `has` answers on every value (in
particular every added one), and identical `getSize`,
`getNumberOfHashes` and `fillRate`. -/
theorem serialize_roundtrip (bf : BloomFilter) (hwf : WF bf) :
    (∀ v : String, has (deserialize (serialize bf)) v = has bf v) ∧
      getSize (deserialize (serialize bf)) = getSize bf ∧
      getNumberOfHashes (deserialize (serialize bf)) = getNumberOfHashes bf ∧
      fillRate (deserialize (serialize bf)) = fillRate bf := by
  rw [deserialize_serialize bf hwf]
  exact ⟨fun _ => rfl, rfl, rfl, rfl⟩

theorem serialize_roundtrip_witness :
    WF (BloomFilter.mk 64 2 (List.replicate 30 5) [12345]) ∧
      ((∀ v : String,
          has (deserialize (serialize (BloomFilter.mk 64 2 (List.replicate 30 5) [12345]))) v
            = has (BloomFilter.mk 64 2 (List.replicate 30 5) [12345]) v) ∧
        getSize (deserialize (serialize (BloomFilter.mk 64 2 (List.replicate 30 5) [12345])))
          = getSize (BloomFilter.mk 64 2 (List.replicate 30 5) [12345]) ∧
        getNumberOfHashes
            (deserialize (serialize (BloomFilter.mk 64 2 (List.replicate 30 5) [12345])))
          = getNumberOfHashes (BloomFilter.mk 64 2 (List.replicate 30 5) [12345]) ∧
        fillRate (deserialize (serialize (BloomFilter.mk 64 2 (List.replicate 30 5) [12345])))
          = fillRate (BloomFilter.mk 64 2 (List.replicate 30 5) [12345])) :=
  ⟨by decide, serialize_roundtrip (BloomFilter.mk 64 2 (List.replicate 30 5) [12345]) (by decide)⟩

/-- C3: `FalsePositiveRate` construction on a finite double `q` fails
with `InvalidArgument` iff `q ≤ 0 ∨ 1 ≤ q`; exactly 0 and exactly 1
fail; any `0 < q < 1` succeeds and reads back unchanged. -/
theorem fpr_construct_spec (q : ℚ) :
    ((∃ msg, FalsePositiveRate.construct (Double.val q)
        = .error (.invalidArgument msg)) ↔ q ≤ 0 ∨ 1 ≤ q) ∧
      FalsePositiveRate.construct (Double.val 0)
        = .error (.invalidArgument "FPR must be between 0 and 1") ∧
      FalsePositiveRate.construct (Double.val 1)
        = .error (.invalidArgument "FPR must be between 0 and 1") ∧
      (0 < q → q < 1 →
        FalsePositiveRate.construct (Double.val q) = .ok ⟨Double.val q⟩ ∧
          (FalsePositiveRate.mk (Double.val q)).getValue = Double.val q) := by
  have hcond : (Double.leD (Double.val q) (Double.val 0)
      || Double.geD (Double.val q) (Double.val 1)) = true ↔ (q ≤ 0 ∨ 1 ≤ q) := by
    simp [Double.leD, Double.geD]
  refine ⟨⟨?_, ?_⟩,
    by rw [FalsePositiveRate.construct, if_pos (by simp [Double.leD, Double.geD])],
    by rw [FalsePositiveRate.construct, if_pos (by simp [Double.leD, Double.geD])], ?_⟩
  · rintro ⟨msg, hmsg⟩
    by_contra h
    rw [FalsePositiveRate.construct, if_neg (fun hc => h (hcond.mp hc))] at hmsg
    exact Except.noConfusion hmsg
  · intro h
    exact ⟨"FPR must be between 0 and 1",
      by rw [FalsePositiveRate.construct, if_pos (hcond.mpr h)]⟩
  · intro h0 h1
    have hne : ¬ (q ≤ 0 ∨ 1 ≤ q) := by
      rintro (h | h) <;> linarith
    exact ⟨by rw [FalsePositiveRate.construct, if_neg (fun hc => hne (hcond.mp hc))], rfl⟩

theorem fpr_construct_spec_witness :
    ((∃ msg, FalsePositiveRate.construct (Double.val (1 / 2))
        = .error (.invalidArgument msg)) ↔ (1 : ℚ) / 2 ≤ 0 ∨ 1 ≤ (1 : ℚ) / 2) ∧
      FalsePositiveRate.construct (Double.val 0)
        = .error (.invalidArgument "FPR must be between 0 and 1") ∧
      FalsePositiveRate.construct (Double.val 1)
        = .error (.invalidArgument "FPR must be between 0 and 1") ∧
      ((1 : ℚ) / 2 > 0 → (1 : ℚ) / 2 < 1 →
        FalsePositiveRate.construct (Double.val (1 / 2)) = .ok ⟨Double.val (1 / 2)⟩ ∧
          (FalsePositiveRate.mk (Double.val (1 / 2))).getValue = Double.val (1 / 2)) :=
  fpr_construct_spec (1 / 2)

/-- C6: `clear` zeroes every trailing bit word, leaves `size`,
`num_hashes` and the stored seeds unchanged (and the word count), and
`fillRate` is exactly 0 immediately afterwards. -/
theorem clear_spec (bf : BloomFilter) :
    (clear bf).size = bf.size ∧
      (clear bf).num_hashes = bf.num_hashes ∧
      (clear bf).hashes = bf.hashes ∧
      (clear bf).words.length = bf.words.length ∧
      (∀ w ∈ (clear bf).words, w = 0) ∧
      fillRate (clear bf) = 0 := by
  refine ⟨rfl, rfl, rfl, by simp [clear], ?_, ?_⟩
  · intro w hw
    exact List.eq_of_mem_replicate hw
  · unfold fillRate
    have hz : ∀ i, getBit (clear bf) i = false := by
      intro i
      unfold getBit clear
      simp only [getD_replicate_zero]
      exact Nat.zero_testBit _
    have hc : (List.range (clear bf).size).countP (fun i => getBit (clear bf) i) = 0 := by
      rw [List.countP_eq_zero]
      intro i _
      simp [hz i]
    rw [hc]
    simp

/-- C8: The string hash is deterministic — it is a pure function of
`(value, seed)` alone, so any two evaluations on equal inputs agree —
and the digest fits in 32 bits. -/
theorem hashString_deterministic (v₁ v₂ : String) (s₁ s₂ : ℕ)
    (hv : v₁ = v₂) (hs : s₁ = s₂) :
    hashString v₁ s₁ = hashString v₂ s₂ ∧ hashString v₁ s₁ < 2 ^ 32 := by
  subst hv
  subst hs
  exact ⟨rfl, hashString_lt v₁ s₁⟩

theorem hashString_deterministic_witness :
    "goat" = "goat" ∧ (5 : ℕ) = 5 ∧
      (hashString "goat" 5 = hashString "goat" 5 ∧ hashString "goat" 5 < 2 ^ 32) :=
  ⟨rfl, rfl, hashString_deterministic "goat" "goat" 5 5 rfl rfl⟩

/-- C9: The validation `value <= 0 || value >= 1` is false for NaN
(IEEE comparisons on NaN are false), so construction succeeds and a
`FalsePositiveRate` carrying NaN — which is not a finite value strictly
between 0 and 1, failing even the IEEE checks `0 < value` and
`value < 1` — is obtained. -/
theorem fpr_nan_accepted :
    FalsePositiveRate.construct Double.nan = .ok ⟨Double.nan⟩ ∧
      Double.leD Double.nan (Double.val 0) = false ∧
      Double.geD Double.nan (Double.val 1) = false ∧
      Double.ltD (Double.val 0) Double.nan = false ∧
      Double.ltD Double.nan (Double.val 1) = false ∧
      (∀ q : ℚ, Double.nan ≠ Double.val q) :=
  ⟨rfl, rfl, rfl, rfl, rfl, fun _ h => Double.noConfusion h⟩

/-- C10: The accessors are pure field reads with no validation: they
return the header's `size` and `num_hashes` and the stored total byte
length; a filter adopted from a buffer reports whatever `num_hashes`
the buffer declares, even a value outside `[1, 30]` such as 100. -/
theorem accessors_pure (bf : BloomFilter) (buf : List ℕ) :
    getSize bf = bf.size ∧
      getNumberOfHashes bf = bf.num_hashes ∧
      getTotalSize bf = 128 + ((bf.size + 63) / 64) * 8 ∧
      getSize (deserialize buf) = fromLEBytes (buf.take 4) ∧
      getNumberOfHashes (deserialize buf) = fromLEBytes ((buf.drop 4).take 4) ∧
      getNumberOfHashes (deserialize (toLEBytes 4 64 ++ toLEBytes 4 100)) = 100 ∧
      ¬ getNumberOfHashes (deserialize (toLEBytes 4 64 ++ toLEBytes 4 100)) ≤ 30 :=
  ⟨rfl, rfl, rfl, rfl, rfl, by decide, by decide⟩

/-- C4: `calculateTotalBits` is the spec formula — `ceil(-n*ln(p) /
(ln 2)^2)` rounded up to a multiple of 64 — and for every positive item
count and `fpr` strictly inside `(0,1)` the result is a multiple of 64
and at least 64. -/
theorem calculateTotalBits_spec (n : ℕ) (p : ℝ) (hn : 0 < n)
    (hp0 : 0 < p) (hp1 : p < 1) :
    calculateTotalBits n p
        = roundUpTo64 (Int.toNat ⌈(-(n : ℝ) * Real.log p) / (Real.log 2) ^ 2⌉) ∧
      64 ∣ calculateTotalBits n p ∧ 64 ≤ calculateTotalBits n p := by
  refine ⟨rfl, dvd_mul_left 64 _, ?_⟩
  have hlog2 : 0 < Real.log 2 := Real.log_pos (by norm_num)
  have hlogp : Real.log p < 0 := Real.log_neg hp0 hp1
  have hx : 0 < (-(n : ℝ) * Real.log p) / (Real.log 2) ^ 2 := by
    apply div_pos
    · have hn' : (0 : ℝ) < (n : ℝ) := by exact_mod_cast hn
      nlinarith
    · positivity
  have hceil : 0 < ⌈(-(n : ℝ) * Real.log p) / (Real.log 2) ^ 2⌉ := Int.ceil_pos.mpr hx
  have hm : 1 ≤ (⌈(-(n : ℝ) * Real.log p) / (Real.log 2) ^ 2⌉).toNat := by omega
  unfold calculateTotalBits roundUpTo64
  have hq : 1 ≤ ((⌈(-(n : ℝ) * Real.log p) / (Real.log 2) ^ 2⌉).toNat + 63) / 64 :=
    (Nat.le_div_iff_mul_le (by norm_num)).mpr (by omega)
  calc (64 : ℕ) = 1 * 64 := by norm_num
    _ ≤ (((⌈(-(n : ℝ) * Real.log p) / (Real.log 2) ^ 2⌉).toNat + 63) / 64) * 64 :=
        Nat.mul_le_mul_right 64 hq

theorem calculateTotalBits_witness :
    calculateTotalBits 1 (1 / 2)
        = roundUpTo64
            (Int.toNat ⌈(-((1 : ℕ) : ℝ) * Real.log (1 / 2)) / (Real.log 2) ^ 2⌉) ∧
      64 ∣ calculateTotalBits 1 (1 / 2) ∧ 64 ≤ calculateTotalBits 1 (1 / 2) :=
  calculateTotalBits_spec 1 (1 / 2) Nat.one_pos one_half_pos one_half_lt_one

/-- C5: the computed hash count is `round((m/n)*ln 2)` clamped into
`[1, 30]`; an explicitly supplied `maxHashes` (nonzero) is the hard
ceiling instead, itself bounded above by 30, so a request above 30 is
clamped down to 30, never rejected. -/
theorem calculateOptMaxNumHashes_spec (itemCount bitArraySize maxHashes : ℕ) :
    1 ≤ calculateOptMaxNumHashes itemCount bitArraySize maxHashes ∧
      calculateOptMaxNumHashes itemCount bitArraySize maxHashes ≤ 30 ∧
      (maxHashes = 0 →
        calculateOptMaxNumHashes itemCount bitArraySize maxHashes
          = min 30 (max 1
              (round ((bitArraySize : ℝ) / (itemCount : ℝ) * Real.log 2)).toNat)) ∧
      (maxHashes ≠ 0 →
        calculateOptMaxNumHashes itemCount bitArraySize maxHashes ≤ min maxHashes 30) ∧
      (30 < maxHashes →
        calculateOptMaxNumHashes itemCount bitArraySize maxHashes ≤ 30) := by
  unfold calculateOptMaxNumHashes
  by_cases h : maxHashes = 0
  · rw [if_pos h]
    subst h
    refine ⟨by omega, by omega, fun _ => rfl, fun hc => absurd rfl hc, fun hc => by omega⟩
  · rw [if_neg h]
    have h1 : 1 ≤ maxHashes := Nat.one_le_iff_ne_zero.mpr h
    refine ⟨by omega, by omega, fun hc => absurd hc h, fun _ => by omega, fun _ => by omega⟩

theorem calculateOptMaxNumHashes_witness :
    1 ≤ calculateOptMaxNumHashes 100 900 35 ∧
      calculateOptMaxNumHashes 100 900 35 ≤ 30 ∧
      ((35 : ℕ) = 0 →
        calculateOptMaxNumHashes 100 900 35
          = min 30 (max 1 (round ((900 : ℕ) / ((100 : ℕ) : ℝ) * Real.log 2)).toNat)) ∧
      ((35 : ℕ) ≠ 0 → calculateOptMaxNumHashes 100 900 35 ≤ min 35 30) ∧
      (30 < 35 → calculateOptMaxNumHashes 100 900 35 ≤ 30) :=
  calculateOptMaxNumHashes_spec 100 900 35

/-- C7: binary layout — `size` is the uint32 at byte offset 0,
`num_hashes` the uint32 at offset 4, the 30 uint32 seeds are packed
back-to-back from offset 8, the uint64 words start at offset 128, and
the total byte length — also of a filter adopted from a buffer, where
it is computed from the header's `size` field alone — is
`128 + ceil(size/64)*8`. -/
theorem layout_spec (bf : BloomFilter) (buf : List ℕ) (hwf : WF bf) :
    fromLEBytes ((serialize bf).take 4) = bf.size ∧
      fromLEBytes (((serialize bf).drop 4).take 4) = bf.num_hashes ∧
      (∀ i, i < 30 →
        ((serialize bf).drop (8 + 4 * i)).take 4 = toLEBytes 4 (bf.hashes.getD i 0)) ∧
      (∀ i, i < bf.words.length →
        ((serialize bf).drop (128 + 8 * i)).take 8 = toLEBytes 8 (bf.words.getD i 0)) ∧
      (serialize bf).length = 128 + ((bf.size + 63) / 64) * 8 ∧
      getTotalSize (deserialize buf)
        = 128 + ((fromLEBytes (buf.take 4) + 63) / 64) * 8 := by
  obtain ⟨hsz, hnh, hhl, hhb, hwl, hwb⟩ := hwf
  refine ⟨serialize_take_4 bf hsz, ?_, ?_, ?_, ?_, rfl⟩
  · rw [serialize_drop_4, take_append_length _ _ _ (toLEBytes_length 4 bf.num_hashes),
      fromLEBytes_toLEBytes, show (256 : ℕ) ^ 4 = 2 ^ 32 from by norm_num,
      Nat.mod_eq_of_lt hnh]
  · intro i hi
    rw [← List.drop_drop, serialize_drop_8]
    exact encodeList_drop_take 4 bf.hashes _ i (by rw [hhl]; exact hi)
  · intro i hi
    rw [← List.drop_drop, serialize_drop_128 bf hhl]
    exact encodeList_drop_take_nil 8 bf.words i hi
  · rw [serialize_length bf hhl, hwl]
    ring

theorem layout_spec_witness :
    fromLEBytes ((serialize (BloomFilter.mk 128 3 (List.replicate 30 9) [1, 2])).take 4)
        = (BloomFilter.mk 128 3 (List.replicate 30 9) [1, 2]).size ∧
      fromLEBytes (((serialize (BloomFilter.mk 128 3 (List.replicate 30 9) [1, 2])).drop 4).take 4)
        = (BloomFilter.mk 128 3 (List.replicate 30 9) [1, 2]).num_hashes ∧
      (∀ i, i < 30 →
        ((serialize (BloomFilter.mk 128 3 (List.replicate 30 9) [1, 2])).drop (8 + 4 * i)).take 4
          = toLEBytes 4 ((BloomFilter.mk 128 3 (List.replicate 30 9) [1, 2]).hashes.getD i 0)) ∧
      (∀ i, i < (BloomFilter.mk 128 3 (List.replicate 30 9) [1, 2]).words.length →
        ((serialize (BloomFilter.mk 128 3 (List.replicate 30 9) [1, 2])).drop (128 + 8 * i)).take 8
          = toLEBytes 8 ((BloomFilter.mk 128 3 (List.replicate 30 9) [1, 2]).words.getD i 0)) ∧
      (serialize (BloomFilter.mk 128 3 (List.replicate 30 9) [1, 2])).length
        = 128 + (((BloomFilter.mk 128 3 (List.replicate 30 9) [1, 2]).size + 63) / 64) * 8 ∧
      getTotalSize (deserialize [1, 0, 0, 0])
        = 128 + ((fromLEBytes ([1, 0, 0, 0].take 4) + 63) / 64) * 8 :=
  layout_spec (BloomFilter.mk 128 3 (List.replicate 30 9) [1, 2]) [1, 0, 0, 0] (by decide)

end Bloom
